import Mathlib

/-!
Verification of the vesti-rss repository: a shallow embedding in Lean 4 of the
XML escaping utilities (package `xmlutil`), the date/time parsing helpers, the
URL validation helper, the batch decoding step, and the news pipeline of
`main.go`, together with proofs of the specified properties.

Strings that the Go code handles byte-wise (package `xmlutil` operates on
`[]byte` / UTF-8 encoded `string`) are modelled as `List Nat` of byte values;
strings that the Go code handles rune-wise (the regular expressions of
`main.go`) are modelled as Lean `String` / `List Char`.
-/

namespace VestiRss

/-! ## Package xmlutil: UTF-8 decoding

`AppendEscaped` decodes its input with Go's `utf8.DecodeRuneInString`.
`decodeRune` models that function on a byte list: it returns the decoded code
point together with the number of bytes consumed, yielding
`(RuneError, 1)` for every malformed prefix (invalid first byte, continuation
byte out of its accepted range, or truncated sequence) and `(RuneError, 0)`
only on empty input.  The accepted ranges for the second byte exclude overlong
encodings, surrogates and values above U+10FFFF, exactly as Go's
`acceptRanges` table does. -/

def RuneError : Nat := 0xFFFD

def decodeRune : List Nat → Nat × Nat
  | [] => (RuneError, 0)
  | b0 :: rest =>
    if b0 < 0x80 then (b0, 1)
    else if b0 < 0xC2 then (RuneError, 1)
    else if b0 ≤ 0xDF then
      match rest with
      | b1 :: _ =>
        if 0x80 ≤ b1 ∧ b1 ≤ 0xBF then ((b0 % 0x20) * 0x40 + b1 % 0x40, 2)
        else (RuneError, 1)
      | [] => (RuneError, 1)
    else if b0 ≤ 0xEF then
      match rest with
      | b1 :: b2 :: _ =>
        if (if b0 = 0xE0 then 0xA0 else 0x80) ≤ b1 ∧ b1 ≤ (if b0 = 0xED then 0x9F else 0xBF) then
          if 0x80 ≤ b2 ∧ b2 ≤ 0xBF then
            ((b0 % 0x10) * 0x1000 + (b1 % 0x40) * 0x40 + b2 % 0x40, 3)
          else (RuneError, 1)
        else (RuneError, 1)
      | _ => (RuneError, 1)
    else if b0 ≤ 0xF4 then
      match rest with
      | b1 :: b2 :: b3 :: _ =>
        if (if b0 = 0xF0 then 0x90 else 0x80) ≤ b1 ∧ b1 ≤ (if b0 = 0xF4 then 0x8F else 0xBF) then
          if 0x80 ≤ b2 ∧ b2 ≤ 0xBF then
            if 0x80 ≤ b3 ∧ b3 ≤ 0xBF then
              ((b0 % 8) * 0x40000 + (b1 % 0x40) * 0x1000 + (b2 % 0x40) * 0x40 + b3 % 0x40, 4)
            else (RuneError, 1)
          else (RuneError, 1)
        else (RuneError, 1)
      | _ => (RuneError, 1)
    else (RuneError, 1)

theorem decodeRune_size_pos (b0 : Nat) (rest : List Nat) :
    1 ≤ (decodeRune (b0 :: rest)).2 := by
  simp only [decodeRune]
  repeat' split <;> norm_num

/-! ## Package xmlutil: escaping -/

/-- Byte values of an ASCII string literal. -/
def ascii (s : String) : List Nat := s.data.map Char.toNat

/-- Function `isValidXmlChar` from `xmlutil`: the XML 1.0 legal character ranges. -/
def isValidXmlChar (r : Nat) : Prop :=
  r = 0x09 ∨ r = 0x0A ∨ r = 0x0D ∨
  (0x20 ≤ r ∧ r ≤ 0xD7FF) ∨ (0xE000 ≤ r ∧ r ≤ 0xFFFD) ∨
  (0x10000 ≤ r ∧ r ≤ 0x10FFFF)

instance (r : Nat) : Decidable (isValidXmlChar r) := by
  unfold isValidXmlChar; infer_instance

/-- The `switch` of `AppendEscaped`, per decoded rune: `some esc` when the rune
at hand is replaced by the bytes `esc`, `none` when it is copied verbatim
(the `continue` branch of the loop). -/
def escRepl (r width : Nat) : Option (List Nat) :=
  if r = 0x22 then some (ascii "&quot;")
  else if r = 0x27 then some (ascii "&apos;")
  else if r = 0x26 then some (ascii "&amp;")
  else if r = 0x3C then some (ascii "&lt;")
  else if r = 0x3E then some (ascii "&gt;")
  else if isValidXmlChar r ∧ (r ≠ RuneError ∨ width ≠ 1) then none
  else some (ascii "\\uFFFD")

/-- The loop of `AppendEscaped`: index `i` scans the text, `last` marks the
start of the pending verbatim run, and every replacement flushes
`text[last:i]` followed by the escape.  The `fuel` argument only serves
structural recursion; the loop advances `i` by at least one byte per step, so
any `fuel ≥ text.length - i` computes the loop exactly (see
`appendEscapedFrom_spec`). -/
def appendEscapedFrom (fuel : Nat) (dest text : List Nat) (i last : Nat) : List Nat :=
  match fuel with
  | 0 => dest ++ text.drop last
  | fuel + 1 =>
    if i < text.length then
      let d := decodeRune (text.drop i)
      match escRepl d.1 d.2 with
      | none => appendEscapedFrom fuel dest text (i + d.2) last
      | some esc =>
        appendEscapedFrom fuel (dest ++ (text.drop last).take (i - last) ++ esc)
          text (i + d.2) (i + d.2)
    else dest ++ text.drop last

/-- Go function `xmlutil.AppendEscaped`. -/
def AppendEscaped (dest text : List Nat) : List Nat :=
  appendEscapedFrom text.length dest text 0 0

/-- Go function `xmlutil.AppendTag`. -/
def AppendTag (dest tag text : List Nat) : List Nat :=
  AppendEscaped (dest ++ [0x3C] ++ tag ++ [0x3E]) text ++ ascii "</" ++ tag ++ [0x3E]

/-! ### The specification-side escaping function

`escapeSpec` is transcribed from the specification's words, not from the
code: process Unicode scalar values in input order; replace each of the five
characters by its entity; replace every scalar value outside the XML 1.0
legal ranges (the ranges the specification lists), and every
malformed/undecodable unit (which consumes exactly one input byte), by the
literal six-character marker (backslash, `u`, `F`, `F`, `F`, `D`); copy
everything else verbatim. -/

/-- The legal ranges exactly as the specification lists them. -/
def xmlLegal (r : Nat) : Prop :=
  r = 0x09 ∨ r = 0x0A ∨ r = 0x0D ∨
  (0x20 ≤ r ∧ r ≤ 0xD7FF) ∨ (0xE000 ≤ r ∧ r ≤ 0xFFFD) ∨
  (0x10000 ≤ r ∧ r ≤ 0x10FFFF)

instance (r : Nat) : Decidable (xmlLegal r) := by
  unfold xmlLegal; infer_instance

/-- One step of the specification: what the escaper emits for the scalar value
`r` decoded from `w` input bytes whose encoding is `bytes`. -/
def escSpecPiece (r w : Nat) (bytes : List Nat) : List Nat :=
  if r = 0x22 then ascii "&quot;"
  else if r = 0x27 then ascii "&apos;"
  else if r = 0x26 then ascii "&amp;"
  else if r = 0x3C then ascii "&lt;"
  else if r = 0x3E then ascii "&gt;"
  else if ¬ xmlLegal r ∨ (r = RuneError ∧ w = 1) then ascii "\\uFFFD"
  else bytes.take w

/-- The specification-side escaper (with structural fuel, exact for any
`fuel ≥ text.length`; see `escapeSpecF_fuel`). -/
def escapeSpecF (fuel : Nat) (text : List Nat) : List Nat :=
  match fuel with
  | 0 => []
  | fuel + 1 =>
    match text with
    | [] => []
    | b :: rest =>
      let d := decodeRune (b :: rest)
      escSpecPiece d.1 d.2 (b :: rest) ++ escapeSpecF fuel ((b :: rest).drop d.2)

def escapeSpec (text : List Nat) : List Nat := escapeSpecF text.length text

theorem escapeSpecF_fuel (f1 : Nat) :
    ∀ f2 text, text.length ≤ f1 → text.length ≤ f2 →
      escapeSpecF f1 text = escapeSpecF f2 text := by
  induction f1 using Nat.strong_induction_on with
  | _ f1 ih =>
    intro f2 text h1 h2
    cases text with
    | nil => cases f1 <;> cases f2 <;> rfl
    | cons b rest =>
      cases f1 with
      | zero => simp at h1
      | succ f1 =>
        cases f2 with
        | zero => simp at h2
        | succ f2 =>
          simp only [escapeSpecF]
          have hpos := decodeRune_size_pos b rest
          congr 1
          apply ih f1 (Nat.lt_succ_self f1)
          · simp only [List.length_drop, List.length_cons]
            simp only [List.length_cons] at h1
            omega
          · simp only [List.length_drop, List.length_cons]
            simp only [List.length_cons] at h2
            omega

theorem escapeSpec_cons (b : Nat) (rest : List Nat) :
    escapeSpec (b :: rest) =
      escSpecPiece (decodeRune (b :: rest)).1 (decodeRune (b :: rest)).2 (b :: rest) ++
        escapeSpec ((b :: rest).drop (decodeRune (b :: rest)).2) := by
  have hpos := decodeRune_size_pos b rest
  simp only [escapeSpec, List.length_cons, escapeSpecF]
  congr 1
  exact escapeSpecF_fuel rest.length _ _ (by simp [List.length_drop]; omega)
    (le_refl _)

/-- The code's per-rune decision agrees with the specification's per-rune
decision: `escRepl` returns `some esc` exactly when the specification replaces
the scalar, and `none` exactly when the specification copies it verbatim. -/
theorem escRepl_spec (r w : Nat) (bytes : List Nat) :
    escSpecPiece r w bytes =
      match escRepl r w with
      | some esc => esc
      | none => bytes.take w := by
  unfold escSpecPiece escRepl isValidXmlChar xmlLegal
  by_cases h1 : r = 0x22 <;> simp [h1]
  by_cases h2 : r = 0x27 <;> simp [h2]
  by_cases h3 : r = 0x26 <;> simp [h3]
  by_cases h4 : r = 0x3C <;> simp [h4]
  by_cases h5 : r = 0x3E <;> simp [h5]
  by_cases h6 : (r = 0x09 ∨ r = 0x0A ∨ r = 0x0D ∨
      (0x20 ≤ r ∧ r ≤ 0xD7FF) ∨ (0xE000 ≤ r ∧ r ≤ 0xFFFD) ∨
      (0x10000 ≤ r ∧ r ≤ 0x10FFFF)) ∧ (r ≠ RuneError ∨ w ≠ 1) <;>
    simp [h6] <;> first | tauto | omega

/-- Invariant of the escaping loop: from position `i` with pending verbatim
run starting at `last`, the loop flushes the pending run and then produces the
specification-side escape of the remaining text. -/
theorem appendEscapedFrom_spec (fuel : Nat) :
    ∀ dest text i last, last ≤ i → text.length ≤ i + fuel →
      appendEscapedFrom fuel dest text i last =
        dest ++ (text.drop last).take (i - last) ++ escapeSpec (text.drop i) := by
  induction fuel with
  | zero =>
    intro dest text i last hli hlen
    have hnil : text.drop i = [] := List.drop_eq_nil_of_le (by omega)
    have htake : (text.drop last).take (i - last) = text.drop last := by
      apply List.take_of_length_le
      simp only [List.length_drop]
      omega
    simp [appendEscapedFrom, hnil, htake, escapeSpec, escapeSpecF]
  | succ fuel ih =>
    intro dest text i last hli hlen
    by_cases hi : i < text.length
    · have hne : text.drop i ≠ [] := by
        intro hcon
        have := List.drop_eq_nil_iff_le.mp hcon
        omega
      obtain ⟨b, rest', hbr⟩ := List.exists_cons_of_ne_nil hne
      have hpos : 1 ≤ (decodeRune (text.drop i)).2 := by
        rw [hbr]; exact decodeRune_size_pos b rest'
      have hdd : (text.drop i).drop (decodeRune (text.drop i)).2 =
          text.drop (i + (decodeRune (text.drop i)).2) := by
        rw [List.drop_drop]
      have hstep : escapeSpec (text.drop i) =
          escSpecPiece (decodeRune (text.drop i)).1 (decodeRune (text.drop i)).2
            (text.drop i) ++ escapeSpec (text.drop (i + (decodeRune (text.drop i)).2)) := by
        rw [← hdd, hbr]
        exact escapeSpec_cons b rest'
      simp only [appendEscapedFrom, if_pos hi]
      rcases hrepl : escRepl (decodeRune (text.drop i)).1 (decodeRune (text.drop i)).2 with
        _ | esc
      · -- verbatim byte(s): the loop only advances `i`
        dsimp only
        rw [ih dest text (i + (decodeRune (text.drop i)).2) last (by omega) (by omega)]
        rw [hstep, escRepl_spec, hrepl]
        have hsplit : (text.drop last).take (i + (decodeRune (text.drop i)).2 - last) =
            (text.drop last).take (i - last) ++ (text.drop i).take (decodeRune (text.drop i)).2 := by
          have h1 : i + (decodeRune (text.drop i)).2 - last =
              (i - last) + (decodeRune (text.drop i)).2 := by omega
          have h2 : (text.drop last).drop (i - last) = text.drop i := by
            rw [List.drop_drop]
            congr 1
            omega
          rw [h1, List.take_add, h2]
        rw [hsplit]
        simp
      · -- escaped rune: flush the pending run, emit the escape
        dsimp only
        rw [ih (dest ++ (text.drop last).take (i - last) ++ esc) text
          (i + (decodeRune (text.drop i)).2) (i + (decodeRune (text.drop i)).2)
          (le_refl _) (by omega)]
        rw [hstep, escRepl_spec, hrepl]
        simp
    · have hnil : text.drop i = [] := List.drop_eq_nil_of_le (by omega)
      have htake : (text.drop last).take (i - last) = text.drop last := by
        apply List.take_of_length_le
        simp only [List.length_drop]
        omega
      simp [appendEscapedFrom, if_neg hi, hnil, htake, escapeSpec, escapeSpecF]

/-- Function `AppendEscaped` appends exactly the specification-side escape of the text. -/
theorem appendEscaped_eq (dest text : List Nat) :
    AppendEscaped dest text = dest ++ escapeSpec text := by
  have h := appendEscapedFrom_spec text.length dest text 0 0 (le_refl 0) (by omega)
  simpa [AppendEscaped] using h

/-- Claim C1. For every destination and input, `AppendEscaped` appends the
escape of the input computed per the specification's rules: Unicode scalar
values are processed in input order; the five characters quote, apostrophe,
ampersand, less-than, greater-than become their named entities; every scalar
value outside the XML 1.0 legal ranges and every malformed input unit
(consuming exactly one byte) becomes the literal six-character marker
backslash-uFFFD; all other text is copied verbatim (`escapeSpec` is
transcribed from those rules, `AppendEscaped` from the code). -/
theorem claim_C1_appendEscaped_follows_spec (dest text : List Nat) :
    AppendEscaped dest text = dest ++ escapeSpec text :=
  appendEscaped_eq dest text

/-! ### Safe input: escaping is the identity -/

/-- Safety of a byte string, per the specification: every decoded scalar
value is a legal XML character, no input unit is malformed, and none of the
five escaped characters occurs (fuel-indexed; exact for `fuel ≥ length`). -/
def safeBytesF : Nat → List Nat → Bool
  | 0, _ => true
  | _ + 1, [] => true
  | fuel + 1, b :: rest =>
    let d := decodeRune (b :: rest)
    decide (xmlLegal d.1) && !(d.1 == RuneError && d.2 == 1) &&
    !(d.1 == 0x22) && !(d.1 == 0x27) && !(d.1 == 0x26) &&
    !(d.1 == 0x3C) && !(d.1 == 0x3E) &&
    safeBytesF fuel ((b :: rest).drop d.2)

def safeBytes (text : List Nat) : Bool := safeBytesF text.length text

theorem escapeSpecF_safe (fuel : Nat) :
    ∀ text, text.length ≤ fuel → safeBytesF fuel text = true →
      escapeSpecF fuel text = text := by
  induction fuel with
  | zero =>
    intro text hlen _
    interval_cases h : text.length
    · rw [List.length_eq_zero.mp h]; rfl
  | succ fuel ih =>
    intro text hlen hsafe
    cases text with
    | nil => rfl
    | cons b rest =>
      simp only [safeBytesF, Bool.and_eq_true, decide_eq_true_eq, Bool.not_eq_true',
        Bool.and_eq_false_iff, beq_eq_false_iff_ne, ne_eq, beq_iff_eq] at hsafe
      obtain ⟨⟨⟨⟨⟨⟨⟨hlegal, hmal⟩, h22⟩, h27⟩, h26⟩, h3C⟩, h3E⟩, hrest⟩ := hsafe
      have hpos := decodeRune_size_pos b rest
      simp only [escapeSpecF]
      have hpiece : escSpecPiece (decodeRune (b :: rest)).1 (decodeRune (b :: rest)).2
          (b :: rest) = (b :: rest).take (decodeRune (b :: rest)).2 := by
        unfold escSpecPiece
        have hnm : ¬ (¬ xmlLegal (decodeRune (b :: rest)).1 ∨
            ((decodeRune (b :: rest)).1 = RuneError ∧ (decodeRune (b :: rest)).2 = 1)) := by
          push_neg
          constructor
          · exact hlegal
          · intro hr hw
            rcases hmal with h | h
            · exact absurd hr h
            · exact absurd hw h
        simp [h22, h27, h26, h3C, h3E, hnm]
      rw [hpiece, ih _ (by simp only [List.length_drop, List.length_cons] at *; omega) hrest]
      exact List.take_append_drop _ _

theorem escapeSpec_safe (text : List Nat) (h : safeBytes text = true) :
    escapeSpec text = text :=
  escapeSpecF_safe text.length text (le_refl _) h

/-- Claim C8. Escaping acts as the identity on safe input: for every byte
string whose decoded scalar values are all legal XML characters, with no
malformed units and none of the five characters quote, apostrophe, ampersand,
less-than, greater-than, `AppendEscaped` appends the string unchanged. -/
theorem claim_C8_escaping_identity_on_safe_input (dest text : List Nat)
    (h : safeBytes text = true) :
    AppendEscaped dest text = dest ++ text := by
  rw [appendEscaped_eq, escapeSpec_safe text h]

/-- Witness for C8 at a concrete safe input. -/
theorem claim_C8_escaping_identity_on_safe_input_witness :
    safeBytes (ascii "Hello, world") = true ∧
      AppendEscaped (ascii "xyz") (ascii "Hello, world") =
        ascii "xyz" ++ ascii "Hello, world" :=
  ⟨by decide, claim_C8_escaping_identity_on_safe_input _ _ (by decide)⟩

/-- Claim C10. `AppendEscaped` and `AppendTag` are append-only: the returned
list begins with exactly the original destination, and `AppendTag` is the
destination followed by the opening tag, the escaped text (as produced on an
empty destination), and the closing tag. -/
theorem claim_C10_append_only (dest tag text : List Nat) :
    AppendEscaped dest text = dest ++ AppendEscaped [] text ∧
      AppendTag dest tag text =
        dest ++ ([0x3C] ++ tag ++ [0x3E]) ++ AppendEscaped [] text ++
          (ascii "</" ++ tag ++ [0x3E]) := by
  constructor
  · rw [appendEscaped_eq, appendEscaped_eq]
    simp
  · unfold AppendTag
    rw [appendEscaped_eq, appendEscaped_eq]
    simp

/-! ## main.go: date and time parsing (`makeTS`, `matchDate`, `matchTime`)

The Go code matches the date against the anchored regular expression
`^((?:0?[1-9])|(?:[1-2][0-9])|(?:3[01]))[[:blank:]]+(\p\x7bCyrillic\x7d+)[[:blank:]]+(20[[:digit:]]\x7b2\x7d)$`
and the time against `^((?:[01][0-9])|(?:2[0-3])):([0-5][0-9])$`.  Because the
four character classes involved (decimal digits, blanks, Cyrillic letters) are
pairwise disjoint and the expression is anchored at both ends, backtracking
regex matching coincides with greedy maximal-munch scanning, which is how
`matchDate` is modelled below. -/

def isDigitC (c : Char) : Bool := decide (48 ≤ c.toNat) && decide (c.toNat ≤ 57)

/-- Blank class `[[:blank:]]`: space or horizontal tab. -/
def isBlankC (c : Char) : Bool := c.toNat == 32 || c.toNat == 9

/-- Cyrillic class (`\p` with the Cyrillic script): the main Unicode Cyrillic script blocks.  (The rarely
used supplemental ranges are immaterial here: every month name recognised by
`monthNum` lies in U+0430–U+044F, and any other month text is rejected by the
`month = 0` check of `makeTS` anyway.) -/
def isCyrillicC (c : Char) : Bool :=
  (decide (0x400 ≤ c.toNat) && decide (c.toNat ≤ 0x52F)) ||
  (decide (0x1C80 ≤ c.toNat) && decide (c.toNat ≤ 0x1C88)) ||
  (decide (0x2DE0 ≤ c.toNat) && decide (c.toNat ≤ 0x2DFF)) ||
  (decide (0xA640 ≤ c.toNat) && decide (c.toNat ≤ 0xA69F)) ||
  (decide (0xFE2E ≤ c.toNat) && decide (c.toNat ≤ 0xFE2F))

/-- Go `strconv.Atoi` with the error ignored (as the code does): the numeric
value of a decimal digit string, `0` on anything else. -/
def atoi (s : List Char) : Nat :=
  if s ≠ [] ∧ s.all isDigitC then s.foldl (fun a c => a * 10 + (c.toNat - 48)) 0 else 0

/-- The day alternation `(?:0?[1-9])|(?:[1-2][0-9])|(?:3[01])` applied to a
whole digit run. -/
def dayLang : List Char → Bool
  | [c] => decide (49 ≤ c.toNat) && decide (c.toNat ≤ 57)
  | [c1, c2] =>
    (c1 == '0' && decide (49 ≤ c2.toNat) && decide (c2.toNat ≤ 57)) ||
    ((c1 == '1' || c1 == '2') && isDigitC c2) ||
    (c1 == '3' && (c2 == '0' || c2 == '1'))
  | _ => false

/-- The year group `20[[:digit:]][[:digit:]]` anchored at the end. -/
def yearOK : List Char → Bool
  | [c1, c2, c3, c4] => c1 == '2' && c2 == '0' && isDigitC c3 && isDigitC c4
  | _ => false

/-- Function `matchDate`: the submatches (day, month name, year) of the date regex,
or `none` when it does not match. -/
def matchDate (s : List Char) : Option (List Char × List Char × List Char) :=
  let ds := s.takeWhile isDigitC
  let r1 := s.dropWhile isDigitC
  let bl1 := r1.takeWhile isBlankC
  let r2 := r1.dropWhile isBlankC
  let cy := r2.takeWhile isCyrillicC
  let r3 := r2.dropWhile isCyrillicC
  let bl2 := r3.takeWhile isBlankC
  let r4 := r3.dropWhile isBlankC
  if dayLang ds && !bl1.isEmpty && !cy.isEmpty && !bl2.isEmpty && yearOK r4 then
    some (ds, cy, r4)
  else none

/-- Function `matchTime`: the submatches (hour, minute) of the time regex. -/
def matchTime (t : List Char) : Option (List Char × List Char) :=
  match t with
  | [h1, h2, c, m1, m2] =>
    if ((h1 == '0' || h1 == '1') && isDigitC h2 ||
        (h1 == '2' && decide (48 ≤ h2.toNat) && decide (h2.toNat ≤ 51))) &&
       c == ':' &&
       (decide (48 ≤ m1.toNat) && decide (m1.toNat ≤ 53) && isDigitC m2) then
      some ([h1, h2], [m1, m2])
    else none
  | _ => none

/-- Map `monthMap` of `main.go`: Russian genitive month names to `time.Month`
values, with `0` for an absent key (the zero value of a Go map lookup). -/
def monthNum (s : List Char) : Nat :=
  if s = "января".data then 1
  else if s = "февраля".data then 2
  else if s = "марта".data then 3
  else if s = "апреля".data then 4
  else if s = "мая".data then 5
  else if s = "июня".data then 6
  else if s = "июля".data then 7
  else if s = "августа".data then 8
  else if s = "сентября".data then 9
  else if s = "октября".data then 10
  else if s = "ноября".data then 11
  else if s = "декабря".data then 12
  else 0

/-! ### `time.Date(..., msk).UTC()`

`time.Date` normalises its fields by plain arithmetic: the day of month may
exceed the month's length, in which case the date overflows into the
following month(s).  The computation below mirrors Go's: days since the epoch
for the year, plus the cumulative days before the month (with a leap-day
correction from March on), plus `day - 1`, then hours and minutes.  The
location `Europe/Moscow` is modelled as the fixed offset UTC+3, which is its
tz-database offset for every instant from 2014-10-26 on (all concrete
instants in the claims are in 2024); the general theorems below depend only
on success, never on the offset. -/

def isLeap (y : Nat) : Bool := y % 4 == 0 && (y % 100 != 0 || y % 400 == 0)

/-- Cumulative days before the given month (1–12) in a non-leap year;
Go's `daysBefore` table. -/
def daysBefore : Nat → Nat
  | 1 => 0 | 2 => 31 | 3 => 59 | 4 => 90 | 5 => 120 | 6 => 151
  | 7 => 181 | 8 => 212 | 9 => 243 | 10 => 273 | 11 => 304 | 12 => 334
  | _ => 0

/-- Days from 1970-01-01 to January 1 of year `y` (for `y ≥ 1970`). -/
def epochDays (y : Nat) : Nat :=
  365 * (y - 1970) + ((y - 1) / 4 - 492) - ((y - 1) / 100 - 19) + ((y - 1) / 400 - 4)

/-- Seconds from the epoch to the (possibly overflowing) civil date-time
`y-m-d h:mi:00` read on a UTC clock. -/
def civilSeconds (y m d h mi : Nat) : Nat :=
  (epochDays y + daysBefore m + (if isLeap y ∧ 3 ≤ m then 1 else 0) + (d - 1)) * 86400 +
    h * 3600 + mi * 60

/-- The fixed UTC offset of `Europe/Moscow` (UTC+03:00). -/
def mskOffset : Nat := 3 * 3600

/-- Function `makeTS` of `main.go`: match the date, extract year/month/day, reject an
unrecognised month, match the time, extract hour/minute, and build the
timestamp in Moscow time converted to UTC (represented as Unix seconds). -/
def makeTS (d t : String) : Option Nat :=
  match matchDate d.data with
  | none => none
  | some (ds, ms, ys) =>
    let year := atoi ys
    let month := monthNum ms
    if month = 0 then none
    else
      match matchTime t.data with
      | none => none
      | some (hs, mins) =>
        some (civilSeconds year month (atoi ds) (atoi hs) (atoi mins) - mskOffset)

/-- Claim C5. `makeTS "32 января 2024" "10:00"` fails (day out of the regex's
range), `makeTS "5 января 2024" "25:00"` fails (hour out of the regex's
range), and `makeTS "5 января 2024" "09:30"` yields the UTC instant of
09:30 Moscow time on 2024-01-05, i.e. 2024-01-05 06:30:00 UTC. -/
theorem claim_C5_makeTS_concrete :
    makeTS "32 января 2024" "10:00" = none ∧
    makeTS "5 января 2024" "25:00" = none ∧
    makeTS "5 января 2024" "09:30" = some (civilSeconds 2024 1 5 6 30) := by
  refine ⟨by decide, by decide, ?_⟩
  decide

/-! ### Generic scanning lemma

Greedy scanning over a concatenation: `takeWhile`/`dropWhile` split exactly at
the boundary when every character of the first part satisfies the predicate
and the first character of the second part (if any) does not. -/

theorem span_exact (p : Char → Bool) :
    ∀ xs ys : List Char, (∀ c ∈ xs, p c = true) →
      (∀ c, ys.head? = some c → p c = false) →
      (xs ++ ys).takeWhile p = xs ∧ (xs ++ ys).dropWhile p = ys := by
  intro xs
  induction xs with
  | nil =>
    intro ys _ hys
    cases ys with
    | nil => exact ⟨rfl, rfl⟩
    | cons y ys =>
      have hy : p y = false := hys y rfl
      constructor
      · simp [List.takeWhile_cons, hy]
      · simp [List.dropWhile_cons, hy]
  | cons a xs ih =>
    intro ys hxs hys
    have ha : p a = true := hxs a (by simp)
    obtain ⟨h1, h2⟩ := ih ys (fun c hc => hxs c (by simp [hc])) hys
    constructor
    · simp [List.takeWhile_cons, ha, h1]
    · simp [List.dropWhile_cons, ha, h2]

/-! ### Decimal rendering (specification side)

`digitChar` and the renderers below build the concrete text the quantified
theorems feed to `makeTS`; `natToStr` is the output of `strconv.Itoa` for a
natural number. -/

def digitChar : Nat → Char
  | 0 => '0' | 1 => '1' | 2 => '2' | 3 => '3' | 4 => '4'
  | 5 => '5' | 6 => '6' | 7 => '7' | 8 => '8' | 9 => '9'
  | _ => '*'

/-- Two-digit zero-padded rendering (for `n ≤ 99`). -/
def render2 (n : Nat) : List Char := [digitChar (n / 10), digitChar (n % 10)]

/-- Decimal rendering without padding, as `strconv.Itoa` produces. -/
def natToStr (n : Nat) : List Char :=
  if n = 0 then ['0'] else (Nat.digits 10 n).reverse.map digitChar

/-- The twelve recognised month names, by month number. -/
def monthName : Nat → List Char
  | 1 => "января".data | 2 => "февраля".data | 3 => "марта".data
  | 4 => "апреля".data | 5 => "мая".data | 6 => "июня".data
  | 7 => "июля".data | 8 => "августа".data | 9 => "сентября".data
  | 10 => "октября".data | 11 => "ноября".data | 12 => "декабря".data
  | _ => []

/-- Render `DD monthname YYYY`, with a two-digit day. -/
def renderDate (day mon year : Nat) : List Char :=
  render2 day ++ ' ' :: (monthName mon ++ ' ' :: natToStr year)

/-- Render `HH:MM`. -/
def renderTime (h mi : Nat) : List Char := render2 h ++ ':' :: render2 mi

theorem digitChar_toNat (n : Nat) (h : n ≤ 9) : (digitChar n).toNat = 48 + n := by
  interval_cases n <;> rfl

theorem isDigitC_digitChar (n : Nat) (h : n ≤ 9) : isDigitC (digitChar n) = true := by
  interval_cases n <;> rfl

theorem isBlankC_of_digit (c : Char) (h : isDigitC c = true) : isBlankC c = false := by
  simp only [isDigitC, Bool.and_eq_true, decide_eq_true_eq] at h
  simp only [isBlankC, Bool.or_eq_false_iff, beq_eq_false_iff_ne, ne_eq]
  omega

theorem isCyrillicC_of_digit (c : Char) (h : isDigitC c = true) : isCyrillicC c = false := by
  simp only [isDigitC, Bool.and_eq_true, decide_eq_true_eq] at h
  simp only [isCyrillicC, Bool.or_eq_false_iff, Bool.and_eq_false_iff,
    decide_eq_false_iff_not, not_le]
  omega

theorem render2_digits (n : Nat) (h : n ≤ 99) :
    ∀ c ∈ render2 n, isDigitC c = true := by
  intro c hc
  simp only [render2, List.mem_cons, List.mem_singleton, List.not_mem_nil, or_false] at hc
  rcases hc with rfl | rfl
  · exact isDigitC_digitChar _ (by omega)
  · exact isDigitC_digitChar _ (by omega)

theorem natToStr_digits (n : Nat) : ∀ c ∈ natToStr n, isDigitC c = true := by
  intro c hc
  unfold natToStr at hc
  by_cases h : n = 0
  · simp [h] at hc
    subst hc; rfl
  · simp only [h, if_false, List.mem_map, List.mem_reverse] at hc
    obtain ⟨d, hd, rfl⟩ := hc
    exact isDigitC_digitChar d (by have := Nat.digits_lt_base (by norm_num) hd; omega)

theorem natToStr_ne_nil (n : Nat) : natToStr n ≠ [] := by
  unfold natToStr
  by_cases h : n = 0
  · simp [h]
  · simp only [h, if_false, ne_eq, List.map_eq_nil_iff, List.reverse_eq_nil_iff]
    exact Nat.digits_ne_nil_iff_ne_zero.mpr h

theorem digits_four (y : Nat) (h1 : 1000 ≤ y) (h2 : y ≤ 9999) :
    Nat.digits 10 y = [y % 10, y / 10 % 10, y / 100 % 10, y / 1000] := by
  rw [Nat.digits_def' (by norm_num : (1:Nat) < 10) (by omega),
    Nat.digits_def' (by norm_num : (1:Nat) < 10) (show 0 < y / 10 by omega),
    Nat.digits_def' (by norm_num : (1:Nat) < 10) (show 0 < y / 10 / 10 by omega),
    Nat.digits_def' (by norm_num : (1:Nat) < 10) (show 0 < y / 10 / 10 / 10 by omega)]
  have h3 : y / 10 / 10 = y / 100 := by omega
  rw [h3]
  have h4 : y / 100 / 10 = y / 1000 := by omega
  rw [h4]
  have h5 : y / 1000 / 10 = 0 := by omega
  rw [h5]
  have h6 : y / 1000 % 10 = y / 1000 := by omega
  rw [h6]
  simp

theorem natToStr_year (y : Nat) (h1 : 2000 ≤ y) (h2 : y ≤ 2099) :
    natToStr y = ['2', '0', digitChar (y / 10 % 10), digitChar (y % 10)] := by
  have hy : y ≠ 0 := by omega
  have hq1 : y / 1000 = 2 := by omega
  have hq2 : y / 100 % 10 = 0 := by omega
  unfold natToStr
  rw [if_neg hy, digits_four y (by omega) (by omega), hq1, hq2]
  rfl

theorem isBlankC_of_cyrillic (c : Char) (h : isCyrillicC c = true) : isBlankC c = false := by
  simp only [isCyrillicC, Bool.or_eq_true, Bool.and_eq_true, decide_eq_true_eq] at h
  simp only [isBlankC, Bool.or_eq_false_iff, beq_eq_false_iff_ne, ne_eq]
  omega

theorem monthName_ne_nil (m : Nat) (h1 : 1 ≤ m) (h2 : m ≤ 12) : monthName m ≠ [] := by
  interval_cases m <;> decide

theorem monthName_cyrillic (m : Nat) (h1 : 1 ≤ m) (h2 : m ≤ 12) :
    ∀ c ∈ monthName m, isCyrillicC c = true := by
  interval_cases m <;> decide

theorem monthNum_monthName (m : Nat) (h1 : 1 ≤ m) (h2 : m ≤ 12) :
    monthNum (monthName m) = m := by
  interval_cases m <;> decide

theorem dayLang_render2 (n : Nat) (h1 : 1 ≤ n) (h2 : n ≤ 31) :
    dayLang (render2 n) = true := by
  interval_cases n <;> decide

theorem atoi_render2 (n : Nat) (h : n ≤ 99) : atoi (render2 n) = n := by
  unfold atoi
  rw [if_pos]
  · simp only [render2, List.foldl_cons, List.foldl_nil]
    rw [digitChar_toNat _ (by omega), digitChar_toNat _ (by omega)]
    omega
  · constructor
    · simp [render2]
    · simp only [List.all_eq_true]
      exact render2_digits n h

theorem atoi_natToStr_year (y : Nat) (h1 : 2000 ≤ y) (h2 : y ≤ 2099) :
    atoi (natToStr y) = y := by
  rw [natToStr_year y h1 h2]
  unfold atoi
  rw [if_pos]
  · simp only [List.foldl_cons, List.foldl_nil]
    rw [digitChar_toNat _ (by omega), digitChar_toNat _ (by omega),
      (show ('2' : Char).toNat = 50 from rfl), (show ('0' : Char).toNat = 48 from rfl)]
    omega
  · constructor
    · simp
    · simp only [List.all_eq_true]
      intro c hc
      simp only [List.mem_cons, List.not_mem_nil, or_false] at hc
      rcases hc with rfl | rfl | rfl | rfl
      · rfl
      · rfl
      · exact isDigitC_digitChar _ (by omega)
      · exact isDigitC_digitChar _ (by omega)

theorem yearOK_natToStr (y : Nat) (h1 : 2000 ≤ y) (h2 : y ≤ 2099) :
    yearOK (natToStr y) = true := by
  rw [natToStr_year y h1 h2]
  have d1 := isDigitC_digitChar (y / 10 % 10) (by omega)
  have d2 := isDigitC_digitChar (y % 10) (by omega)
  simp [yearOK, d1, d2]

/-- The date regex accepts `DD monthname YYYY` for every day 01–31, month
name 1–12 and year 2000–2099, splitting it into the three submatches. -/
theorem matchDate_render (day mon year : Nat) (hd1 : 1 ≤ day) (hd2 : day ≤ 31)
    (hm1 : 1 ≤ mon) (hm2 : mon ≤ 12) (hy1 : 2000 ≤ year) (hy2 : year ≤ 2099) :
    matchDate (renderDate day mon year) =
      some (render2 day, monthName mon, natToStr year) := by
  obtain ⟨mc, mrest, hmn⟩ := List.exists_cons_of_ne_nil (monthName_ne_nil mon hm1 hm2)
  obtain ⟨yc, yrest, hyn⟩ := List.exists_cons_of_ne_nil (natToStr_ne_nil year)
  have hmc : isCyrillicC mc = true :=
    monthName_cyrillic mon hm1 hm2 mc (by rw [hmn]; exact List.mem_cons_self _ _)
  have hyc : isDigitC yc = true :=
    natToStr_digits year yc (by rw [hyn]; exact List.mem_cons_self _ _)
  have h1 := span_exact isDigitC (render2 day) (' ' :: (monthName mon ++ ' ' :: natToStr year))
    (render2_digits day (by omega)) (by intro c hc; simp at hc; subst hc; rfl)
  have h2 := span_exact isBlankC [' '] (monthName mon ++ ' ' :: natToStr year)
    (by intro c hc; simp at hc; subst hc; rfl)
    (by
      intro c hc
      rw [hmn] at hc
      simp only [List.cons_append, List.head?_cons, Option.some_inj] at hc
      subst hc
      exact isBlankC_of_cyrillic mc hmc)
  have h3 := span_exact isCyrillicC (monthName mon) (' ' :: natToStr year)
    (monthName_cyrillic mon hm1 hm2)
    (by intro c hc; simp at hc; subst hc; rfl)
  have h4 := span_exact isBlankC [' '] (natToStr year)
    (by intro c hc; simp at hc; subst hc; rfl)
    (by
      intro c hc
      rw [hyn] at hc
      simp only [List.head?_cons, Option.some_inj] at hc
      subst hc
      exact isBlankC_of_digit yc hyc)
  simp only [List.singleton_append] at h2 h4
  unfold renderDate
  simp only [matchDate]
  rw [h1.1, h1.2, h2.1, h2.2, h3.1, h3.2, h4.1, h4.2]
  have hcond : (dayLang (render2 day) && !([' '] : List Char).isEmpty &&
      !(monthName mon).isEmpty && !([' '] : List Char).isEmpty &&
      yearOK (natToStr year)) = true := by
    rw [dayLang_render2 day hd1 hd2, yearOK_natToStr year hy1 hy2]
    simp [hmn]
  rw [hcond]
  simp

/-- The time regex accepts `HH:MM` for every hour 00–23 and minute 00–59. -/
theorem matchTime_render (h mi : Nat) (hh : h ≤ 23) (hmi : mi ≤ 59) :
    matchTime (renderTime h mi) = some (render2 h, render2 mi) := by
  have hhour : ((digitChar (h / 10) == '0' || digitChar (h / 10) == '1') &&
      isDigitC (digitChar (h % 10)) ||
      (digitChar (h / 10) == '2' && decide (48 ≤ (digitChar (h % 10)).toNat) &&
        decide ((digitChar (h % 10)).toNat ≤ 51))) = true := by
    interval_cases h <;> decide
  have hmin : (decide (48 ≤ (digitChar (mi / 10)).toNat) &&
      decide ((digitChar (mi / 10)).toNat ≤ 53) && isDigitC (digitChar (mi % 10))) = true := by
    interval_cases mi <;> decide
  simp only [renderTime, render2, List.cons_append, List.nil_append, matchTime, hhour, hmin]
  simp

/-- Function `makeTS` accepts every rendered day 01–31 / month 1–12 / year 2000–2099
date together with every `HH:MM` time, producing the (possibly overflowing,
normalised) civil instant shifted from Moscow time to UTC. -/
theorem makeTS_render (day mon year h mi : Nat) (hd1 : 1 ≤ day) (hd2 : day ≤ 31)
    (hm1 : 1 ≤ mon) (hm2 : mon ≤ 12) (hy1 : 2000 ≤ year) (hy2 : year ≤ 2099)
    (hh : h ≤ 23) (hmi : mi ≤ 59) :
    makeTS (String.mk (renderDate day mon year)) (String.mk (renderTime h mi)) =
      some (civilSeconds year mon day h mi - mskOffset) := by
  simp only [makeTS,
    (show (String.mk (renderDate day mon year)).data = renderDate day mon year from rfl),
    (show (String.mk (renderTime h mi)).data = renderTime h mi from rfl),
    matchDate_render day mon year hd1 hd2 hm1 hm2 hy1 hy2,
    matchTime_render h mi hh hmi,
    atoi_natToStr_year year hy1 hy2, monthNum_monthName mon hm1 hm2,
    atoi_render2 day (by omega), atoi_render2 h (by omega), atoi_render2 mi (by omega)]
  rw [if_neg (by omega)]

theorem yearOK_len_ne (l : List Char) (h : l.length ≠ 4) : yearOK l = false := by
  match l with
  | [] => rfl
  | [_] => rfl
  | [_, _] => rfl
  | [_, _, _] => rfl
  | [_, _, _, _] => exact absurd rfl h
  | _ :: _ :: _ :: _ :: _ :: _ => rfl

theorem yearOK_natToStr_false (y : Nat) (hy : y < 2000 ∨ 2100 ≤ y) :
    yearOK (natToStr y) = false := by
  by_cases h0 : y = 0
  · subst h0; rfl
  by_cases hlt : y < 1000
  · -- at most three digits
    apply yearOK_len_ne
    have hlog : Nat.log 10 y < 3 :=
      (Nat.lt_pow_iff_log_lt (by norm_num) h0).mp (by norm_num; omega)
    have hlen : (Nat.digits 10 y).length = Nat.log 10 y + 1 :=
      Nat.digits_len 10 y (by norm_num) h0
    simp only [natToStr, h0, if_false, List.length_map, List.length_reverse]
    omega
  by_cases hge : 10000 ≤ y
  · -- at least five digits
    apply yearOK_len_ne
    have hlog : 4 ≤ Nat.log 10 y :=
      (Nat.pow_le_iff_le_log (by norm_num) h0).mp (by norm_num; omega)
    have hlen : (Nat.digits 10 y).length = Nat.log 10 y + 1 :=
      Nat.digits_len 10 y (by norm_num) h0
    simp only [natToStr, h0, if_false, List.length_map, List.length_reverse]
    omega
  · -- exactly four digits, but not of the shape 20xx
    have h4 : natToStr y = [digitChar (y / 1000), digitChar (y / 100 % 10),
        digitChar (y / 10 % 10), digitChar (y % 10)] := by
      unfold natToStr
      rw [if_neg h0, digits_four y (by omega) (by omega)]
      rfl
    rw [h4]
    by_cases hc : y < 2000
    · -- leading digit is 1
      have hq : y / 1000 = 1 := by omega
      rw [hq]
      simp [yearOK, digitChar]
    · -- year is 21xx–99xx: either the thousands digit is not 2,
      -- or the hundreds digit is not 0
      have h21 : 2100 ≤ y := by rcases hy with h | h <;> omega
      by_cases hq : y / 1000 = 2
      · have hk1 : 1 ≤ y / 100 % 10 := by omega
        have hk2 : y / 100 % 10 ≤ 9 := by omega
        rw [hq]
        set k := y / 100 % 10 with hk
        interval_cases k <;> simp [yearOK, digitChar]
      · have hk1 : 3 ≤ y / 1000 := by omega
        have hk2 : y / 1000 ≤ 9 := by omega
        set k := y / 1000 with hk
        interval_cases k <;> simp [yearOK, digitChar]

/-- The date regex rejects every year whose rendering is not `20` followed by
two digits; hence `makeTS` rejects every year outside 2000–2099. -/
theorem makeTS_year_reject (y : Nat) (hy : y < 2000 ∨ 2100 ≤ y) :
    makeTS (String.mk ("15 января ".data ++ natToStr y)) "10:00" = none := by
  obtain ⟨yc, yrest, hyn⟩ := List.exists_cons_of_ne_nil (natToStr_ne_nil y)
  have hyc : isDigitC yc = true :=
    natToStr_digits y yc (by rw [hyn]; exact List.mem_cons_self _ _)
  have hshape : "15 января ".data ++ natToStr y =
      ['1', '5'] ++ ' ' :: ("января".data ++ ' ' :: natToStr y) := rfl
  have h1 := span_exact isDigitC ['1', '5'] (' ' :: ("января".data ++ ' ' :: natToStr y))
    (by intro c hc; simp at hc; rcases hc with rfl | rfl <;> rfl)
    (by intro c hc; simp at hc; subst hc; rfl)
  have h2 := span_exact isBlankC [' '] ("января".data ++ ' ' :: natToStr y)
    (by intro c hc; simp at hc; subst hc; rfl)
    (by intro c hc; simp at hc; subst hc; rfl)
  have h3 := span_exact isCyrillicC ("января".data) (' ' :: natToStr y)
    (by decide)
    (by intro c hc; simp at hc; subst hc; rfl)
  have h4 := span_exact isBlankC [' '] (natToStr y)
    (by intro c hc; simp at hc; subst hc; rfl)
    (by
      intro c hc
      rw [hyn] at hc
      simp only [List.head?_cons, Option.some_inj] at hc
      subst hc
      exact isBlankC_of_digit yc hyc)
  simp only [List.singleton_append] at h2 h4
  simp only [makeTS, (show (String.mk ("15 января ".data ++ natToStr y)).data =
    "15 января ".data ++ natToStr y from rfl), hshape, matchDate]
  rw [h1.1, h1.2, h2.1, h2.2, h3.1, h3.2, h4.1, h4.2]
  rw [yearOK_natToStr_false y hy]
  simp

/-- Function `matchTime` rejects a single-digit hour (the list has four characters,
not five), so `makeTS` fails on it. -/
theorem makeTS_single_digit_hour (h mi : Nat) (h9 : h ≤ 9) (hmi : mi ≤ 59) :
    makeTS "5 января 2024" (String.mk (digitChar h :: ':' :: render2 mi)) = none := by
  have hd : matchDate ("5 января 2024" : String).data =
      some (['5'], ['я', 'н', 'в', 'а', 'р', 'я'], ['2', '0', '2', '4']) := by decide
  have ht : matchTime (String.mk (digitChar h :: ':' :: render2 mi)).data = none := rfl
  simp only [makeTS, hd, ht]
  rw [if_neg (by decide)]

/-- Claim C9. `makeTS` accepts every date string with a two-digit day 01–31, a
recognised Russian month name and a year 2000–2099 together with every
well-formed `HH:MM` time, even when the day exceeds the month's length (the
date overflows arithmetically); in particular `makeTS "31 февраля 2024"
"10:00"` succeeds and yields 2024-03-02 10:00 Moscow time = 07:00 UTC.  It
rejects every year outside 2000–2099 and every single-digit hour such as
`9:30`. -/
theorem claim_C9_makeTS_overflow_and_bounds :
    (∀ day mon year h mi, 1 ≤ day → day ≤ 31 → 1 ≤ mon → mon ≤ 12 →
        2000 ≤ year → year ≤ 2099 → h ≤ 23 → mi ≤ 59 →
        makeTS (String.mk (renderDate day mon year)) (String.mk (renderTime h mi)) =
          some (civilSeconds year mon day h mi - mskOffset)) ∧
    makeTS "31 февраля 2024" "10:00" = some (civilSeconds 2024 3 2 7 0) ∧
    (∀ year, year < 2000 ∨ 2100 ≤ year →
        makeTS (String.mk ("15 января ".data ++ natToStr year)) "10:00" = none) ∧
    (∀ h mi, h ≤ 9 → mi ≤ 59 →
        makeTS "5 января 2024" (String.mk (digitChar h :: ':' :: render2 mi)) = none) := by
  refine ⟨?_, by decide, makeTS_year_reject, makeTS_single_digit_hour⟩
  intro day mon year h mi hd1 hd2 hm1 hm2 hy1 hy2 hh hmi
  exact makeTS_render day mon year h mi hd1 hd2 hm1 hm2 hy1 hy2 hh hmi

/-- Witness for C9: the quantified parts applied at concrete inputs. -/
theorem claim_C9_makeTS_overflow_and_bounds_witness :
    makeTS (String.mk (renderDate 31 12 2024)) (String.mk (renderTime 23 59)) =
        some (civilSeconds 2024 12 31 23 59 - mskOffset) ∧
    makeTS (String.mk ("15 января ".data ++ natToStr 1999)) "10:00" = none ∧
    makeTS "5 января 2024" (String.mk (digitChar 9 :: ':' :: render2 30)) = none :=
  ⟨claim_C9_makeTS_overflow_and_bounds.1 31 12 2024 23 59 (by norm_num) (by norm_num)
      (by norm_num) (by norm_num) (by norm_num) (by norm_num) (by norm_num) (by norm_num),
    claim_C9_makeTS_overflow_and_bounds.2.2.1 1999 (Or.inl (by norm_num)),
    claim_C9_makeTS_overflow_and_bounds.2.2.2 9 30 (by norm_num) (by norm_num)⟩

/-! ## main.go: URL validation -/

/-- The fixed news server prefix. -/
def server : String := "https://www.vesti.ru"

/-- Modelled from the spec: the standard-library call `url.ParseRequestURI`
(not part of this repository) applied to the fixed absolute server prefix
followed by a `/`-prefixed path.  The specification treats this resolution as
producing the absolute validated URL, so it is modelled as total and
identity-preserving on such inputs. -/
def parseRequestURI (s : String) : Option String := some s

/-- Function `makeURL` of `main.go`: reject an empty path or one that does not begin
with `/`, then resolve against the server prefix. -/
def makeURL (s : String) : Option String :=
  match s.data with
  | [] => none
  | c :: _ => if c = '/' then parseRequestURI (server ++ s) else none

/-! ## main.go: the news pipeline -/

/-- A raw news record as decoded from one page (`NewsItem` in `main.go`). -/
structure NewsItem where
  ID : Nat
  Title : String
  Anons : String
  URL : String
  Day : String
  Time : String
deriving DecidableEq

/-- A normalized record ready for serialization: the validated link and the
parsed UTC timestamp together with the copied fields. -/
structure NormItem where
  id : Nat
  title : String
  text : String
  link : String
  ts : Nat
deriving DecidableEq

/-- The two per-record validations of the consumer loop, in source order:
link first, then timestamp; `none` when either fails. -/
def transformItem (it : NewsItem) : Option NormItem :=
  match makeURL it.URL with
  | none => none
  | some link =>
    match makeTS it.Day it.Time with
    | none => none
    | some ts => some ⟨it.ID, it.Title, it.Anons, link, ts⟩

/-- The consumer state of `theApp`: the `seen` set (as the insertion-ordered
list of its members), the emitted records (a ghost trace of the serialized
items, in order), and the number of warnings issued. -/
structure ConvState where
  seen : List Nat
  out : List NormItem
  warns : Nat
deriving DecidableEq

def initConv : ConvState := ⟨[], [], 0⟩

/-- One iteration of the item loop of `theApp`: skip (with a warning) a
duplicate identifier, skip (with a warning) a record whose link or timestamp
fails to validate, otherwise emit the record and only then mark its
identifier as seen. -/
def stepItem (st : ConvState) (it : NewsItem) : ConvState :=
  if it.ID ∈ st.seen then { st with warns := st.warns + 1 }
  else
    match transformItem it with
    | none => { st with warns := st.warns + 1 }
    | some n => { seen := st.seen ++ [it.ID], out := st.out ++ [n], warns := st.warns }

def processItems (st : ConvState) (items : List NewsItem) : ConvState :=
  items.foldl stepItem st

/-- The batch loop of `theApp`, over the batches received from the channel. -/
def processBatches (st : ConvState) (bs : List (List NewsItem)) : ConvState :=
  bs.foldl processItems st

/-- The reader loop of `startReader`: keep fetching while `n > 0`, decrement
`n` by the length of each fetched batch, and deliver every fetched batch.
`takeBatches n bs` is the list of batches delivered when the upstream would
serve the batches `bs` in order. -/
def takeBatches (n : Int) (bs : List (List NewsItem)) : List (List NewsItem) :=
  match bs with
  | [] => []
  | b :: rest => if 0 < n then b :: takeBatches (n - b.length) rest else []

/-- The composed pipeline on delivered batches: the records that `theApp`
emits for a `-max-items` value of `maxItems` when the upstream serves `bs`. -/
def runPipeline (maxItems : Int) (bs : List (List NewsItem)) : List NormItem :=
  (processBatches initConv (takeBatches maxItems bs)).out

/-! ## main.go: serialization and output

The byte-level model of the writer: UTF-8 encoding of the Lean-side strings,
the RFC 1123Z timestamp rendering of `time.Time.AppendFormat` (in UTC, hence
a fixed `+0000` offset), and the per-item `<item>` block.  `theApp` builds
each batch's buffer by appending item blocks to the shared buffer; by the
append-only property of `AppendTag`/`AppendEscaped` (claim C10) the buffer is
the concatenation of the per-item blocks, which is how `batchBytes` states
it. -/

/-- UTF-8 encoding of one scalar value. -/
def utf8Encode (c : Char) : List Nat :=
  let n := c.toNat
  if n < 0x80 then [n]
  else if n < 0x800 then [0xC0 + n / 0x40, 0x80 + n % 0x40]
  else if n < 0x10000 then
    [0xE0 + n / 0x1000, 0x80 + n / 0x40 % 0x40, 0x80 + n % 0x40]
  else
    [0xF0 + n / 0x40000, 0x80 + n / 0x1000 % 0x40, 0x80 + n / 0x40 % 0x40, 0x80 + n % 0x40]

/-- The bytes of a string (Go strings are UTF-8 byte slices). -/
def utf8Bytes (s : String) : List Nat :=
  s.data.foldr (fun c acc => utf8Encode c ++ acc) []

/-- Civil date from a day count since 1970-01-01 (era-based algorithm, valid
for the non-negative day counts produced here). -/
def civilFromDays (z : Nat) : Nat × Nat × Nat :=
  let z' := z + 719468
  let era := z' / 146097
  let doe := z' % 146097
  let yoe := (doe - doe / 1460 + doe / 36524 - doe / 146096) / 365
  let y := yoe + era * 400
  let doy := doe - (365 * yoe + yoe / 4 - yoe / 100)
  let mp := (5 * doy + 2) / 153
  let d := doy - (153 * mp + 2) / 5 + 1
  let m := if mp < 10 then mp + 3 else mp - 9
  (if m ≤ 2 then y + 1 else y, m, d)

def wdayAbbrev : Nat → List Char
  | 0 => "Sun".data | 1 => "Mon".data | 2 => "Tue".data | 3 => "Wed".data
  | 4 => "Thu".data | 5 => "Fri".data | 6 => "Sat".data | _ => []

def monthAbbrev : Nat → List Char
  | 1 => "Jan".data | 2 => "Feb".data | 3 => "Mar".data | 4 => "Apr".data
  | 5 => "May".data | 6 => "Jun".data | 7 => "Jul".data | 8 => "Aug".data
  | 9 => "Sep".data | 10 => "Oct".data | 11 => "Nov".data | 12 => "Dec".data
  | _ => []

/-- Format `ts.AppendFormat(..., time.RFC1123Z)` of a UTC timestamp:
`Mon, 02 Jan 2006 15:04:05 +0000`. -/
def rfc1123z (t : Nat) : List Char :=
  let days := t / 86400
  let secs := t % 86400
  let c := civilFromDays days
  wdayAbbrev ((days + 4) % 7) ++ ", ".data ++ render2 c.2.2 ++ [' '] ++
    monthAbbrev c.2.1 ++ [' '] ++ natToStr c.1 ++ [' '] ++
    render2 (secs / 3600) ++ [':'] ++ render2 (secs % 3600 / 60) ++ [':'] ++
    render2 (secs % 60) ++ " +0000".data

/-- The `<item>` block that the loop body of `theApp` appends to the batch
buffer for one normalized record. -/
def itemBytes (n : NormItem) : List Nat :=
  let b0 := ascii "<item>"
  let b1 := AppendTag b0 (ascii "title") (utf8Bytes n.title)
  let b2 := AppendTag b1 (ascii "description") (utf8Bytes n.text)
  let b3 := AppendTag b2 (ascii "link") (utf8Bytes n.link)
  let b4 := b3 ++ ascii "<guid isPermaLink=\"false\">" ++
    (natToStr n.id).map Char.toNat ++ ascii "</guid>"
  let b5 := b4 ++ ascii "<pubDate>" ++ (rfc1123z n.ts).map Char.toNat ++ ascii "</pubDate>"
  b5 ++ ascii "</item>\n"

/-- Constant `xmlHeader` of `main.go` (`xml.Header` followed by the channel prologue). -/
def xmlHeaderBytes : List Nat :=
  utf8Bytes "<?xml version=\"1.0\" encoding=\"UTF-8\"?>\n<rss version=\"2.0\">\n<channel>\n  <title>vesti.ru Новости</title>\n  <link>https://www.vesti.ru</link>\n  <description>Лента новостей</description>\n"

def xmlFooterBytes : List Nat := utf8Bytes "</channel>\n</rss>\n"

/-- The bytes `theApp` writes for one batch: the item blocks of the records
emitted while processing that batch from conversion state `st`. -/
def batchBytes (st : ConvState) (b : List NewsItem) : List Nat :=
  ((((processItems st b).out.drop st.out.length).map itemBytes)).flatten

/-- The per-batch byte blocks of a whole run, threading the conversion
state. -/
def allBatchBytes : List (List NewsItem) → ConvState → List (List Nat)
  | [], _ => []
  | b :: rest, st => batchBytes st b :: allBatchBytes rest (processItems st b)

/-! ## The output sink and the run model (for the footer/exit-status claims)

`stdout` is modelled as a sink that records the bytes written so far; an I/O
failure is injected by `failFrom = some k`: every write call from the `k`-th
one on fails (Go's `os.Stdout.Write` returns an error, and `theApp` aborts on
the first failed write).  `failFrom = none` is a healthy sink. -/

structure Sink where
  written : List Nat
  calls : Nat
deriving DecidableEq

def doWrite (failFrom : Option Nat) (sk : Sink) (data : List Nat) : Sink × Bool :=
  match failFrom with
  | some k =>
    if k ≤ sk.calls then ({ written := sk.written, calls := sk.calls + 1 }, false)
    else ({ written := sk.written ++ data, calls := sk.calls + 1 }, true)
  | none => ({ written := sk.written ++ data, calls := sk.calls + 1 }, true)

/-- The batch loop of `theApp` with output: serialize each received batch,
write it, abort on the first write failure. -/
def appLoop (failFrom : Option Nat) :
    List (List NewsItem) → Sink → ConvState → Sink × ConvState × Bool
  | [], sk, st => (sk, st, true)
  | b :: rest, sk, st =>
    let w := doWrite failFrom sk (batchBytes st b)
    if w.2 then appLoop failFrom rest w.1 (processItems st b)
    else (w.1, processItems st b, false)

/-- `theApp` from the header write to the footer write, given the batches the
reader delivers: write the header, run the batch loop, then write the footer;
abort (returning an error, modelled as `false`) at the first failed write.
The reader's own error, if any, is reported through `app.Go`/`app.Error`, not
through this return value. -/
def theAppModel (failFrom : Option Nat) (batches : List (List NewsItem)) : Sink × Bool :=
  let w0 := doWrite failFrom ⟨[], 0⟩ xmlHeaderBytes
  if w0.2 then
    let r := appLoop failFrom batches w0.1 initConv
    if r.2.2 then
      let w2 := doWrite failFrom r.1 xmlFooterBytes
      (w2.1, w2.2)
    else (r.1, false)
  else (w0.1, false)

/-- Exit code of `app.Run`, as a flag: non-zero iff the reader goroutine
returned an error (reported via `app.Error` by the `app.Go` wrapper) or
`theApp` itself returned an error; `writeErr` latches the first non-zero
code, and a clean run calls `Shutdown` without touching the code. -/
def runStatusNonzero (readerFailed : Bool) (appOk : Bool) : Bool :=
  readerFailed || !appOk

/-! ## main.go: batch decoding (`newBatchReader`) -/

/-- One decoded response envelope, after `json.Unmarshal` succeeded. -/
structure RawBatch where
  Success : Bool
  Data : List NewsItem
  Next : String
deriving DecidableEq

/-- One call of the `next` closure of `newBatchReader`, after the fetch: the
argument is the result of structural parsing (`none` when `json.Unmarshal`
fails), and the result is either an error or the record list together with
the validated absolute next-page URL (the new value of the page cursor
`reqURL`). -/
def nextBatch (parsed : Option RawBatch) : Except String (List NewsItem × String) :=
  match parsed with
  | none => .error "invalid response"
  | some b =>
    if b.Success = false then .error "response indicates an error"
    else if b.Data.length = 0 then .error "response contains no news"
    else
      match makeURL b.Next with
      | none => .error "next page URL"
      | some u => .ok (b.Data, u)

/-! ## Deduplication (C2) -/

theorem transformItem_id (it : NewsItem) (n : NormItem) (h : transformItem it = some n) :
    n.id = it.ID := by
  unfold transformItem at h
  rcases hu : makeURL it.URL with _ | link <;> rw [hu] at h
  · exact absurd h (by simp)
  rcases ht : makeTS it.Day it.Time with _ | ts <;> rw [ht] at h
  · exact absurd h (by simp)
  simp only [Option.some_inj] at h
  rw [← h]

/-- The batch loop over the flattened item stream. -/
theorem processBatches_flatten (bs : List (List NewsItem)) (st : ConvState) :
    processBatches st bs = processItems st bs.flatten := by
  unfold processBatches processItems
  rw [List.foldl_flatten]

theorem processItems_cons (st : ConvState) (it : NewsItem) (items : List NewsItem) :
    processItems st (it :: items) = processItems (stepItem st it) items := rfl

theorem stepItem_dup (st : ConvState) (it : NewsItem) (h : it.ID ∈ st.seen) :
    stepItem st it = { st with warns := st.warns + 1 } := by
  unfold stepItem
  rw [if_pos h]

theorem stepItem_invalid (st : ConvState) (it : NewsItem) (hmem : it.ID ∉ st.seen)
    (htr : transformItem it = none) :
    stepItem st it = { st with warns := st.warns + 1 } := by
  unfold stepItem
  rw [if_neg hmem, htr]

theorem stepItem_emit (st : ConvState) (it : NewsItem) (n : NormItem)
    (hmem : it.ID ∉ st.seen) (htr : transformItem it = some n) :
    stepItem st it = ⟨st.seen ++ [it.ID], st.out ++ [n], st.warns⟩ := by
  unfold stepItem
  rw [if_neg hmem, htr]

/-- Invariant: the `seen` list is exactly the identifiers of the emitted
records, in order (an identifier is marked only when a record is emitted). -/
theorem stepItem_inv (st : ConvState) (it : NewsItem)
    (h : st.seen = st.out.map NormItem.id) :
    (stepItem st it).seen = (stepItem st it).out.map NormItem.id := by
  by_cases hmem : it.ID ∈ st.seen
  · rw [stepItem_dup st it hmem]
    exact h
  rcases htr : transformItem it with _ | n
  · rw [stepItem_invalid st it hmem htr]
    exact h
  · rw [stepItem_emit st it n hmem htr]
    simp [h, transformItem_id it n htr]

theorem processItems_seen_eq (items : List NewsItem) :
    ∀ st : ConvState, st.seen = st.out.map NormItem.id →
      (processItems st items).seen = (processItems st items).out.map NormItem.id := by
  induction items with
  | nil => intro st h; exact h
  | cons it items ih =>
    intro st h
    rw [processItems_cons]
    exact ih _ (stepItem_inv st it h)

/-- Main deduplication lemma: for any identifier, the records emitted while
processing `items` from state `st` extend the already-emitted ones by the
transformation of the first not-yet-seen valid occurrence of that identifier,
if any. -/
theorem processItems_filter (id : Nat) (items : List NewsItem) :
    ∀ st : ConvState, st.seen = st.out.map NormItem.id →
      (processItems st items).out.filter (fun n => n.id == id) =
        st.out.filter (fun n => n.id == id) ++
          (if id ∈ st.seen then []
           else ((items.filter (fun it => it.ID == id)).filterMap transformItem).take 1) := by
  induction items with
  | nil =>
    intro st hinv
    by_cases h : id ∈ st.seen <;> simp [processItems, h]
  | cons it items ih =>
    intro st hinv
    rw [processItems_cons]
    by_cases hmem : it.ID ∈ st.seen
    · -- duplicate: only the warning counter changes
      rw [stepItem_dup st it hmem, ih { st with warns := st.warns + 1 } hinv]
      by_cases hid : id ∈ st.seen
      · simp [hid]
      · have hne : (it.ID == id) = false := by
          simp only [beq_eq_false_iff_ne, ne_eq]
          intro hcon
          exact hid (hcon ▸ hmem)
        simp [hid, List.filter_cons, hne]
    · rcases htr : transformItem it with _ | n
      · -- invalid record: dropped with a warning, nothing marked
        rw [stepItem_invalid st it hmem htr, ih { st with warns := st.warns + 1 } hinv]
        by_cases hid : id ∈ st.seen
        · simp [hid]
        · simp only [hid, if_neg, List.filter_cons]
          by_cases hit : (it.ID == id)
          · simp [hit, List.filterMap_cons, htr]
          · simp [hit]
      · -- valid, unseen: emitted, and only then marked seen
        have hn : n.id = it.ID := transformItem_id it n htr
        have hinv2 : (st.seen ++ [it.ID]) = (st.out ++ [n]).map NormItem.id := by
          simp [hinv, hn]
        rw [stepItem_emit st it n hmem htr,
          ih ⟨st.seen ++ [it.ID], st.out ++ [n], st.warns⟩ hinv2]
        by_cases hit : it.ID = id
        · have hid : id ∉ st.seen := fun hcon => hmem (hit ▸ hcon)
          have hmemapp : id ∈ st.seen ++ [it.ID] := by simp [hit]
          simp only [hmemapp, if_pos, hid, if_neg, List.filter_append, List.filter_cons,
            List.filterMap_cons, htr, hit]
          simp [hn, hit, List.filterMap_cons, htr]
        · have hmemapp : (id ∈ st.seen ++ [it.ID]) ↔ id ∈ st.seen := by
            simp only [List.mem_append, List.mem_singleton]
            constructor
            · rintro (h | h)
              · exact h
              · exact absurd h.symm hit
            · exact Or.inl
          have hnid : (n.id == id) = false := by
            simp only [beq_eq_false_iff_ne, ne_eq, hn]
            exact hit
          have hitid : (it.ID == id) = false := by
            simp only [beq_eq_false_iff_ne, ne_eq]
            exact hit
          dsimp only
          simp only [hmemapp]
          by_cases hid : id ∈ st.seen
          · simp [hid, List.filter_append, List.filter_cons, hnid]
          · simp [hid, List.filter_append, List.filter_cons, hnid, hitid]

/-- Claim C2. For every input batch sequence and every identifier, the emitted
output contains at most one record with that identifier, namely the
transformation of the first occurrence that passed validation (duplicate and
invalid occurrences mark nothing); and the `seen` set is exactly the list of
emitted identifiers, so an identifier enters it at most once and only after
its link and timestamp both validated. -/
theorem claim_C2_dedup_first_valid (bs : List (List NewsItem)) (id : Nat) :
    (processBatches initConv bs).out.filter (fun n => n.id == id) =
      (((bs.flatten.filter (fun it => it.ID == id)).filterMap transformItem).take 1) ∧
    (processBatches initConv bs).seen = (processBatches initConv bs).out.map NormItem.id := by
  constructor
  · rw [processBatches_flatten]
    have h := processItems_filter id bs.flatten initConv (by simp [initConv])
    simpa [initConv] using h
  · rw [processBatches_flatten]
    exact processItems_seen_eq bs.flatten initConv (by simp [initConv])

/-! ## Target cutoff (C3) -/

/-- A record that passes both validations (distinct records by identifier). -/
def goodItem (i : Nat) : NewsItem :=
  ⟨i, "t", "a", "/n", "5 января 2024", "09:30"⟩

/-- A record whose relative URL is not parseable (no leading `/`). -/
def badItem : NewsItem :=
  ⟨1, "t", "a", "news", "5 января 2024", "09:30"⟩

/-- Claim C3, counterexample.  With target `N = 1` and a first page of two
distinct valid records, the pipeline emits two items: the reader stops
fetching only when the cumulative raw count reaches the target, and the
consumer processes every delivered batch in full, so the output exceeds
`N`. -/
theorem claim_C3_counterexample :
    ¬ ((runPipeline 1 [[goodItem 1, goodItem 2]]).length ≤ 1) := by decide

theorem processItems_out_len (items : List NewsItem) :
    ∀ st : ConvState, (processItems st items).out.length ≤ st.out.length + items.length := by
  induction items with
  | nil => intro st; simp [processItems]
  | cons it items ih =>
    intro st
    rw [processItems_cons]
    have h := ih (stepItem st it)
    have hstep : (stepItem st it).out.length ≤ st.out.length + 1 := by
      by_cases hmem : it.ID ∈ st.seen
      · rw [stepItem_dup st it hmem]; simp
      rcases htr : transformItem it with _ | n
      · rw [stepItem_invalid st it hmem htr]; simp
      · rw [stepItem_emit st it n hmem htr]; simp
    simp only [List.length_cons]
    omega

/-- The reader fetches the shortest batch prefix whose raw-record total
reaches the target: before the final delivered batch, strictly fewer than `N`
raw records were fetched. -/
theorem takeBatches_dropLast_sum (bs : List (List NewsItem)) :
    ∀ N : Int, 1 ≤ N →
      ((((takeBatches N bs).dropLast.map List.length).sum : Int) < N) := by
  induction bs with
  | nil =>
    intro N hN
    simp [takeBatches]
    omega
  | cons b rest ih =>
    intro N hN
    simp only [takeBatches, if_pos (show (0 : Int) < N by omega)]
    rcases h : takeBatches (N - b.length) rest with _ | ⟨b2, rest2⟩
    · simp
      omega
    · have hpos : (0 : Int) < N - b.length := by
        by_contra hcon
        push_neg at hcon
        cases rest with
        | nil => simp [takeBatches] at h
        | cons c cs =>
          rw [takeBatches, if_neg (by omega)] at h
          exact absurd h (by simp)
      have ihh := ih (N - b.length) (by omega)
      rw [h] at ihh
      rw [← h, List.dropLast_cons_of_ne_nil (by rw [h]; simp), h]
      simp only [List.map_cons, List.sum_cons]
      push_cast at *
      omega

/-- The emitted item count never exceeds the raw-record total of the
delivered batches. -/
theorem runPipeline_len (N : Int) (bs : List (List NewsItem)) :
    (runPipeline N bs).length ≤ ((takeBatches N bs).map List.length).sum := by
  unfold runPipeline
  rw [processBatches_flatten]
  have h := processItems_out_len (takeBatches N bs).flatten initConv
  simp only [initConv, List.length_nil, Nat.zero_add] at h
  calc (processItems initConv (takeBatches N bs).flatten).out.length
      ≤ (takeBatches N bs).flatten.length := h
    _ = ((takeBatches N bs).map List.length).sum := by
        rw [List.length_flatten]

/-- Claim C3, amended.  Given target `N ≥ 1`, the reader stops fetching as soon
as the cumulative raw-record count of the delivered batches reaches `N`
(strictly fewer than `N` raw records precede the final delivered batch), and
the emitted item count never exceeds that cumulative raw count — but within
the final batch all remaining valid records are emitted, so the output may
exceed `N` (see the counterexample). -/
theorem claim_C3_amended_cutoff (N : Int) (bs : List (List NewsItem)) (hN : 1 ≤ N) :
    ((((takeBatches N bs).dropLast.map List.length).sum : Int) < N) ∧
    (runPipeline N bs).length ≤ ((takeBatches N bs).map List.length).sum :=
  ⟨takeBatches_dropLast_sum bs N hN, runPipeline_len N bs⟩

/-- Witness for the amended C3 at the counterexample input. -/
theorem claim_C3_amended_cutoff_witness :
    ((((takeBatches 1 [[goodItem 1, goodItem 2]]).dropLast.map List.length).sum : Int) < 1) ∧
    (runPipeline 1 [[goodItem 1, goodItem 2]]).length ≤
      ((takeBatches 1 [[goodItem 1, goodItem 2]]).map List.length).sum :=
  claim_C3_amended_cutoff 1 [[goodItem 1, goodItem 2]] (by norm_num)

/-! ## Per-record failure recovery (C7) -/

theorem stepItem_drop (st : ConvState) (it : NewsItem) (h : transformItem it = none) :
    stepItem st it = { st with warns := st.warns + 1 } := by
  by_cases hmem : it.ID ∈ st.seen
  · exact stepItem_dup st it hmem
  · exact stepItem_invalid st it hmem h

/-- The warning counter is inert: processing from a state with `w` pending
warnings gives the same seen/out and `w` plus the warnings of a zero-warning
run. -/
theorem processItems_warns (items : List NewsItem) :
    ∀ seen out w, processItems ⟨seen, out, w⟩ items =
      ⟨(processItems ⟨seen, out, 0⟩ items).seen, (processItems ⟨seen, out, 0⟩ items).out,
        w + (processItems ⟨seen, out, 0⟩ items).warns⟩ := by
  induction items with
  | nil => intro seen out w; simp [processItems]
  | cons it items ih =>
    intro seen out w
    rw [processItems_cons, processItems_cons]
    by_cases hmem : it.ID ∈ seen
    · rw [stepItem_dup ⟨seen, out, w⟩ it hmem, stepItem_dup ⟨seen, out, 0⟩ it hmem]
      have h1 := ih seen out (w + 1)
      have h2 := ih seen out 1
      dsimp only at h1 h2 ⊢
      rw [h1, h2]
      dsimp only
      simp only [ConvState.mk.injEq]
      refine ⟨trivial, trivial, ?_⟩
      omega
    · rcases htr : transformItem it with _ | n
      · rw [stepItem_invalid ⟨seen, out, w⟩ it hmem htr,
          stepItem_invalid ⟨seen, out, 0⟩ it hmem htr]
        have h1 := ih seen out (w + 1)
        have h2 := ih seen out 1
        dsimp only at h1 h2 ⊢
        rw [h1, h2]
        dsimp only
        simp only [ConvState.mk.injEq]
        refine ⟨trivial, trivial, ?_⟩
        omega
      · rw [stepItem_emit ⟨seen, out, w⟩ it n hmem htr,
          stepItem_emit ⟨seen, out, 0⟩ it n hmem htr]
        exact ih (seen ++ [it.ID]) (out ++ [n]) w

theorem processItems_warns_succ (items : List NewsItem) (st : ConvState) :
    processItems { st with warns := st.warns + 1 } items =
      { processItems st items with warns := (processItems st items).warns + 1 } := by
  obtain ⟨seen, out, w⟩ := st
  have h1 := processItems_warns items seen out (w + 1)
  have h2 := processItems_warns items seen out w
  dsimp only at h1 h2 ⊢
  rw [h1, h2]
  dsimp only
  simp only [ConvState.mk.injEq]
  refine ⟨trivial, trivial, ?_⟩
  omega

/-- Dropping an invalid record: processing a stream with an invalid record
spliced in gives exactly the state of the stream without it, plus one
warning — the remaining records are processed as before and the run
continues. -/
theorem processItems_drop_invalid (st : ConvState) (pre post : List NewsItem)
    (bad : NewsItem) (h : transformItem bad = none) :
    processItems st (pre ++ bad :: post) =
      { processItems st (pre ++ post) with
          warns := (processItems st (pre ++ post)).warns + 1 } := by
  have hsplit : processItems st (pre ++ bad :: post) =
      processItems (stepItem (processItems st pre) bad) post := by
    simp [processItems, List.foldl_append]
  have hsplit2 : processItems st (pre ++ post) =
      processItems (processItems st pre) post := by
    simp [processItems, List.foldl_append]
  rw [hsplit, stepItem_drop _ bad h, processItems_warns_succ, hsplit2]

/-! ## Output and exit status (C4, and the status part of C7) -/

theorem doWrite_true (f : Option Nat) (sk : Sink) (data : List Nat)
    (h : (doWrite f sk data).2 = true) :
    (doWrite f sk data).1 = ⟨sk.written ++ data, sk.calls + 1⟩ := by
  unfold doWrite at *
  cases f with
  | none => rfl
  | some k =>
    dsimp only at h ⊢
    by_cases hk : k ≤ sk.calls
    · rw [if_pos hk] at h
      exact absurd h (by simp)
    · rw [if_neg hk]

theorem doWrite_false (f : Option Nat) (sk : Sink) (data : List Nat)
    (h : (doWrite f sk data).2 = false) :
    (doWrite f sk data).1 = ⟨sk.written, sk.calls + 1⟩ := by
  unfold doWrite at *
  cases f with
  | none => exact absurd h (by simp)
  | some k =>
    dsimp only at h ⊢
    by_cases hk : k ≤ sk.calls
    · rw [if_pos hk]
    · rw [if_neg hk] at h
      exact absurd h (by simp)

/-- With a healthy sink, the batch loop writes every batch block, never
fails, and ends in the state of the pure batch loop. -/
theorem appLoop_none (bs : List (List NewsItem)) :
    ∀ (sk : Sink) (st : ConvState), appLoop none bs sk st =
      (⟨sk.written ++ (allBatchBytes bs st).flatten, sk.calls + bs.length⟩,
        processBatches st bs, true) := by
  induction bs with
  | nil =>
    intro sk st
    simp [appLoop, allBatchBytes, processBatches, processItems]
  | cons b rest ih =>
    intro sk st
    simp only [appLoop, doWrite]
    rw [if_pos trivial]
    rw [ih]
    simp only [allBatchBytes, List.flatten_cons, Prod.mk.injEq, Sink.mk.injEq]
    refine ⟨⟨by simp, by simp [List.length_cons]; omega⟩, ?_, trivial⟩
    simp [processBatches, List.foldl_cons]

/-- If the batch loop reports success, every block was written. -/
theorem appLoop_ok_written (bs : List (List NewsItem)) :
    ∀ (f : Option Nat) (sk : Sink) (st : ConvState),
      (appLoop f bs sk st).2.2 = true →
      (appLoop f bs sk st).1.written = sk.written ++ (allBatchBytes bs st).flatten := by
  induction bs with
  | nil => intro f sk st _; simp [appLoop, allBatchBytes]
  | cons b rest ih =>
    intro f sk st h
    simp only [appLoop] at h ⊢
    by_cases hw : (doWrite f sk (batchBytes st b)).2 = true
    · rw [if_pos hw] at h ⊢
      rw [ih f _ _ h, doWrite_true f sk _ hw]
      simp [allBatchBytes]
    · rw [if_neg hw] at h
      exact absurd h (by simp)

/-- If the batch loop fails, the output is the prefix formed by the blocks of
some initial batches — in particular nothing after them was written. -/
theorem appLoop_fail_written (bs : List (List NewsItem)) :
    ∀ (f : Option Nat) (sk : Sink) (st : ConvState),
      (appLoop f bs sk st).2.2 = false →
      ∃ j, (appLoop f bs sk st).1.written =
        sk.written ++ ((allBatchBytes bs st).take j).flatten := by
  induction bs with
  | nil => intro f sk st h; simp [appLoop] at h
  | cons b rest ih =>
    intro f sk st h
    simp only [appLoop] at h ⊢
    by_cases hw : (doWrite f sk (batchBytes st b)).2 = true
    · rw [if_pos hw] at h ⊢
      obtain ⟨j, hj⟩ := ih f _ _ h
      refine ⟨j + 1, ?_⟩
      rw [hj, doWrite_true f sk _ hw]
      simp [allBatchBytes, List.take_cons]
    · rw [if_neg hw] at h ⊢
      refine ⟨0, ?_⟩
      rw [doWrite_false f sk _ (by simpa using hw)]
      simp

theorem allBatchBytes_length (bs : List (List NewsItem)) :
    ∀ st : ConvState, (allBatchBytes bs st).length = bs.length := by
  induction bs with
  | nil => intro st; rfl
  | cons b rest ih => intro st; simp [allBatchBytes, ih]

/-- With a healthy sink `theApp` succeeds, whatever the records and however
the reader terminated (its error is reported out of band). -/
theorem theAppModel_none_ok (bs : List (List NewsItem)) :
    (theAppModel none bs).2 = true := by
  simp only [theAppModel]
  rw [if_pos (show (doWrite none ⟨[], 0⟩ xmlHeaderBytes).2 = true from rfl)]
  rw [appLoop_none bs]
  dsimp only
  rw [if_pos rfl]
  rfl

/-- On a successful run the output is exactly header, item blocks, footer. -/
theorem theAppModel_ok_written (f : Option Nat) (bs : List (List NewsItem))
    (h : (theAppModel f bs).2 = true) :
    (theAppModel f bs).1.written =
      xmlHeaderBytes ++ (allBatchBytes bs initConv).flatten ++ xmlFooterBytes := by
  simp only [theAppModel] at h ⊢
  by_cases h0 : (doWrite f ⟨[], 0⟩ xmlHeaderBytes).2 = true
  · rw [if_pos h0] at h ⊢
    by_cases h1 : (appLoop f bs (doWrite f ⟨[], 0⟩ xmlHeaderBytes).1 initConv).2.2 = true
    · rw [if_pos h1] at h ⊢
      dsimp only at h ⊢
      rw [doWrite_true f _ _ h]
      dsimp only
      rw [appLoop_ok_written bs f _ initConv h1, doWrite_true f ⟨[], 0⟩ xmlHeaderBytes h0]
      simp
    · rw [if_neg h1] at h
      exact absurd h (by simp)
  · rw [if_neg h0] at h
    exact absurd h (by simp)

/-- On a failed run the output is empty (the header write failed) or the
header followed by the blocks of an initial segment of the batches; the
footer is never part of it. -/
theorem theAppModel_fail_written (f : Option Nat) (bs : List (List NewsItem))
    (h : (theAppModel f bs).2 = false) :
    (theAppModel f bs).1.written = [] ∨
      ∃ j, (theAppModel f bs).1.written =
        xmlHeaderBytes ++ ((allBatchBytes bs initConv).take j).flatten := by
  simp only [theAppModel] at h ⊢
  by_cases h0 : (doWrite f ⟨[], 0⟩ xmlHeaderBytes).2 = true
  · rw [if_pos h0] at h ⊢
    by_cases h1 : (appLoop f bs (doWrite f ⟨[], 0⟩ xmlHeaderBytes).1 initConv).2.2 = true
    · rw [if_pos h1] at h ⊢
      dsimp only at h ⊢
      right
      refine ⟨bs.length, ?_⟩
      rw [doWrite_false f _ _ h]
      dsimp only
      rw [appLoop_ok_written bs f _ initConv h1, doWrite_true f ⟨[], 0⟩ xmlHeaderBytes h0]
      rw [← allBatchBytes_length bs initConv, List.take_length]
      simp
    · rw [if_neg h1] at h ⊢
      right
      obtain ⟨j, hj⟩ :=
        appLoop_fail_written bs f (doWrite f ⟨[], 0⟩ xmlHeaderBytes).1 initConv
          (by simpa using h1)
      refine ⟨j, ?_⟩
      dsimp only
      rw [hj, doWrite_true f ⟨[], 0⟩ xmlHeaderBytes h0]
      simp
  · rw [if_neg h0] at h ⊢
    left
    dsimp only
    rw [doWrite_false f _ _ (by simpa using h0)]

/-- Claim C7. Per-record validation failures are recovered locally: processing
a stream with an invalid record spliced in yields exactly the result of the
stream without it plus one warning (the remaining records are still
processed); with a healthy output sink the run always completes successfully
whatever the records contain; and the concrete batch of one bad-URL record
and one valid record yields exactly one normalized record and one warning. -/
theorem claim_C7_partial_failure_continuation :
    (∀ (st : ConvState) (pre post : List NewsItem) (bad : NewsItem),
        transformItem bad = none →
        processItems st (pre ++ bad :: post) =
          { processItems st (pre ++ post) with
              warns := (processItems st (pre ++ post)).warns + 1 }) ∧
    (∀ bs : List (List NewsItem), (theAppModel none bs).2 = true) ∧
    (processBatches initConv [[badItem, goodItem 7]]).out.length = 1 ∧
    (processBatches initConv [[badItem, goodItem 7]]).warns = 1 := by
  refine ⟨?_, theAppModel_none_ok, by decide, by decide⟩
  intro st pre post bad h
  exact processItems_drop_invalid st pre post bad h

/-- Witness for C7 at concrete inputs. -/
theorem claim_C7_partial_failure_continuation_witness :
    processItems initConv ([goodItem 7] ++ badItem :: [goodItem 8]) =
      { processItems initConv ([goodItem 7] ++ [goodItem 8]) with
          warns := (processItems initConv ([goodItem 7] ++ [goodItem 8])).warns + 1 } ∧
    (theAppModel none [[goodItem 7]]).2 = true :=
  ⟨claim_C7_partial_failure_continuation.1 initConv [goodItem 7] [goodItem 8] badItem
      (by decide),
    claim_C7_partial_failure_continuation.2.1 [[goodItem 7]]⟩

/-- Claim C4, counterexample.  A run whose reader thread fails (transport or
envelope error — modelled by the reader delivering no batches and reporting
failure out of band) but whose output writes all succeed: the exit status is
non-zero, yet the footer IS written — the consumer loop cannot observe the
reader's error and terminates normally, contradicting the claim that a fatal
transport/envelope error prevents the footer. -/
theorem claim_C4_counterexample :
    runStatusNonzero true (theAppModel none []).2 = true ∧
    (theAppModel none []).1.written = xmlHeaderBytes ++ xmlFooterBytes := by
  constructor
  · rfl
  · have h := theAppModel_ok_written none [] (theAppModel_none_ok [])
    simpa [allBatchBytes] using h

/-- Claim C4, amended.  If `theApp` completes (no output I/O error), its output
is the header, the item blocks of the delivered batches, and the footer
written exactly once at the end — including when zero items were emitted, and
regardless of whether the reader failed (a reader failure still makes the
exit status non-zero, but out of band).  If `theApp` aborts on an output I/O
error, the footer is never written: the output is empty or the header plus an
initial segment of the batch blocks.  The exit status is zero exactly when
neither the reader nor `theApp` failed. -/
theorem claim_C4_footer_amended (f : Option Nat) (bs : List (List NewsItem)) (rf : Bool) :
    ((theAppModel f bs).2 = true →
        (theAppModel f bs).1.written =
          xmlHeaderBytes ++ (allBatchBytes bs initConv).flatten ++ xmlFooterBytes) ∧
    ((theAppModel f bs).2 = false →
        (theAppModel f bs).1.written = [] ∨
          ∃ j, (theAppModel f bs).1.written =
            xmlHeaderBytes ++ ((allBatchBytes bs initConv).take j).flatten) ∧
    (runStatusNonzero rf (theAppModel f bs).2 = false ↔
        rf = false ∧ (theAppModel f bs).2 = true) := by
  refine ⟨theAppModel_ok_written f bs, theAppModel_fail_written f bs, ?_⟩
  unfold runStatusNonzero
  cases rf <;> cases h : (theAppModel f bs).2 <;> simp [h]

/-- Witness for the amended C4: a healthy run writes header and footer; a run
whose very first write fails leaves the output without a footer. -/
theorem claim_C4_footer_amended_witness :
    (theAppModel none []).1.written =
      xmlHeaderBytes ++ (allBatchBytes [] initConv).flatten ++ xmlFooterBytes ∧
    ((theAppModel (some 0) []).1.written = [] ∨
      ∃ j, (theAppModel (some 0) []).1.written =
        xmlHeaderBytes ++ ((allBatchBytes [] initConv).take j).flatten) :=
  ⟨(claim_C4_footer_amended none [] false).1 (by rfl),
    (claim_C4_footer_amended (some 0) [] false).2.1 (by rfl)⟩

/-! ## Batch decoding (C6) -/

theorem makeURL_none_iff (s : String) :
    makeURL s = none ↔ s.data.head? ≠ some '/' := by
  unfold makeURL parseRequestURI
  rcases h : s.data with _ | ⟨c, rest⟩
  · simp
  · by_cases hc : c = '/' <;> simp [hc]

theorem makeURL_slash (s : String) (h : s.data.head? = some '/') :
    makeURL s = some (server ++ s) := by
  unfold makeURL parseRequestURI
  rcases hd : s.data with _ | ⟨c, rest⟩
  · rw [hd] at h
    simp at h
  · rw [hd] at h
    simp only [List.head?_cons, Option.some_inj] at h
    dsimp only
    rw [if_pos h]

/-- Claim C6. Decoding a fetched page fails exactly when structural parsing
failed, or the envelope's success flag is false, or the record list is empty,
or the continuation path is empty or does not begin with `/`; otherwise it
returns the record list and the page cursor advances to the validated
absolute next-page URL (the server prefix followed by the path; the
standard-library URL parse is spec-modelled as total on such inputs). -/
theorem claim_C6_batch_decode (p : Option RawBatch) :
    ((∃ e, nextBatch p = .error e) ↔
        p = none ∨ ∃ b, p = some b ∧
          (b.Success = false ∨ b.Data = [] ∨ b.Next.data.head? ≠ some '/')) ∧
    (∀ b, p = some b → b.Success = true → b.Data ≠ [] → b.Next.data.head? = some '/' →
        nextBatch p = .ok (b.Data, server ++ b.Next)) := by
  constructor
  · cases p with
    | none => simp [nextBatch]
    | some b =>
      unfold nextBatch
      dsimp only
      by_cases hs : b.Success = false
      · rw [if_pos hs]
        simp [hs]
      · rw [if_neg hs]
        by_cases hd : b.Data.length = 0
        · rw [if_pos hd]
          have hde : b.Data = [] := List.length_eq_zero.mp hd
          simp [hde]
        · rw [if_neg hd]
          have hde : ¬ b.Data = [] := fun hcon => hd (by rw [hcon]; rfl)
          rcases hu : makeURL b.Next with _ | u
          · have hh := (makeURL_none_iff b.Next).mp hu
            simp [hs, hde, hh]
          · have hh : ¬ b.Next.data.head? ≠ some '/' := by
              intro hcon
              rw [(makeURL_none_iff b.Next).mpr hcon] at hu
              exact absurd hu (by simp)
            simp [hs, hde, hh]
  · intro b hb hsucc hdata hhead
    subst hb
    unfold nextBatch
    dsimp only
    rw [if_neg (by simp [hsucc]),
      if_neg (fun hcon => hdata (List.length_eq_zero.mp hcon)),
      makeURL_slash b.Next hhead]

/-- Witness for C6: a well-formed envelope decodes to its records and the
advanced cursor. -/
theorem claim_C6_batch_decode_witness :
    nextBatch (some ⟨true, [goodItem 1], "/p2"⟩) =
      .ok ([goodItem 1], server ++ "/p2") :=
  (claim_C6_batch_decode (some ⟨true, [goodItem 1], "/p2"⟩)).2
    ⟨true, [goodItem 1], "/p2"⟩ rfl rfl (by decide) (by decide)

end VestiRss
